import Mathlib

/-!
Shallow embedding of the review-session data model and persistence layer of
`olmocr/bench/review_app.py` (the dataset loader, the flattening saver, the
next-unchecked scan, the single-field record mutator and the three cursor
moves), together with proofs of the specified properties.

JSON-decoded values are modelled by the inductive `JVal`; a decoded record
(one line of the JSONL dataset) is an association list of string keys to
values, exactly the shape `json.loads` produces for an object.  Serialization
is modelled at the record level: writing a record and re-parsing the written
line yields the same field map, so a persisted dataset is the list of its
records.  Python `dict.get` returning `None` for a missing key is modelled by
`pyGet` returning `JVal.null`.
-/

namespace ReviewApp

/-- A JSON value as produced by `json.loads`: null, booleans, numbers
(modelled as integers), strings, arrays and objects. -/
inductive JVal where
  | null
  | bool (b : Bool)
  | num (n : Int)
  | str (s : String)
  | arr (xs : List JVal)
  | obj (fs : List (String × JVal))

mutual

/-- Structural equality of JSON values, mirroring Python `==` on decoded
values of like type. -/
def JVal.beq : JVal → JVal → Bool
  | .null, .null => true
  | .bool a, .bool b => a == b
  | .num a, .num b => a == b
  | .str a, .str b => a == b
  | .arr a, .arr b => JVal.beqArr a b
  | .obj a, .obj b => JVal.beqObj a b
  | _, _ => false

/-- Elementwise equality of JSON arrays. -/
def JVal.beqArr : List JVal → List JVal → Bool
  | [], [] => true
  | x :: xs, y :: ys => JVal.beq x y && JVal.beqArr xs ys
  | _, _ => false

/-- Fieldwise equality of JSON objects. -/
def JVal.beqObj : List (String × JVal) → List (String × JVal) → Bool
  | [], [] => true
  | (k, v) :: xs, (l, w) :: ys => k == l && JVal.beq v w && JVal.beqObj xs ys
  | _, _ => false

end

mutual

theorem JVal.eq_of_beq : ∀ {a b : JVal}, JVal.beq a b = true → a = b
  | .null, .null, _ => rfl
  | .bool _, .bool _, h => by
    simp only [JVal.beq, beq_iff_eq] at h; rw [h]
  | .num _, .num _, h => by
    simp only [JVal.beq, beq_iff_eq] at h; rw [h]
  | .str _, .str _, h => by
    simp only [JVal.beq, beq_iff_eq] at h; rw [h]
  | .arr a, .arr b, h => by
    rw [JVal.eqArr_of_beqArr h]
  | .obj a, .obj b, h => by
    rw [JVal.eqObj_of_beqObj h]

theorem JVal.eqArr_of_beqArr : ∀ {a b : List JVal}, JVal.beqArr a b = true → a = b
  | [], [], _ => rfl
  | x :: xs, y :: ys, h => by
    simp only [JVal.beqArr, Bool.and_eq_true] at h
    rw [JVal.eq_of_beq h.1, JVal.eqArr_of_beqArr h.2]

theorem JVal.eqObj_of_beqObj : ∀ {a b : List (String × JVal)}, JVal.beqObj a b = true → a = b
  | [], [], _ => rfl
  | (k, v) :: xs, (l, w) :: ys, h => by
    simp only [JVal.beqObj, Bool.and_eq_true, beq_iff_eq] at h
    rw [h.1.1, JVal.eq_of_beq h.1.2, JVal.eqObj_of_beqObj h.2]

end

mutual

theorem JVal.beq_refl : ∀ (a : JVal), JVal.beq a a = true
  | .null => rfl
  | .bool b => by simp [JVal.beq]
  | .num n => by simp [JVal.beq]
  | .str s => by simp [JVal.beq]
  | .arr a => by simpa [JVal.beq] using JVal.beqArr_refl a
  | .obj a => by simpa [JVal.beq] using JVal.beqObj_refl a

theorem JVal.beqArr_refl : ∀ (a : List JVal), JVal.beqArr a a = true
  | [] => rfl
  | x :: xs => by simp [JVal.beqArr, JVal.beq_refl x, JVal.beqArr_refl xs]

theorem JVal.beqObj_refl : ∀ (a : List (String × JVal)), JVal.beqObj a a = true
  | [] => rfl
  | (k, v) :: xs => by simp [JVal.beqObj, JVal.beq_refl v, JVal.beqObj_refl xs]

end

instance : BEq JVal := ⟨JVal.beq⟩

instance : LawfulBEq JVal where
  eq_of_beq := JVal.eq_of_beq
  rfl := JVal.beq_refl _

instance : DecidableEq JVal := fun a b =>
  decidable_of_iff (JVal.beq a b = true) ⟨JVal.eq_of_beq, fun h => h ▸ JVal.beq_refl a⟩

/-- A decoded JSONL record: the field map of a JSON object, keys in file order. -/
abbrev JRec := List (String × JVal)

/-- Python `record.get(k)`: the value of the first field named `k`, and
`None` (here `JVal.null`) when the key is absent.  A field explicitly set to
JSON null is indistinguishable from an absent field, exactly as in the
Python source. -/
def pyGet (r : JRec) (k : String) : JVal :=
  match r.find? (fun p => p.1 == k) with
  | some p => p.2
  | none => JVal.null

/-- Python truthiness of a decoded JSON value, as tested by `if pdf_name:`. -/
def truthy : JVal → Bool
  | .null => false
  | .bool b => b
  | .num n => n != 0
  | .str s => s != ""
  | .arr xs => !xs.isEmpty
  | .obj fs => !fs.isEmpty

/-- Whether a decoded JSON value can serve as a Python dict key (arrays and
objects decode to unhashable `list`/`dict`). -/
def hashable : JVal → Bool
  | .arr _ => false
  | .obj _ => false
  | _ => true

/-- Python `test[field] = value` on a dict: an existing key keeps its
position and gets the new value, a new key is appended at the end. -/
def setField (r : JRec) (k : String) (v : JVal) : JRec :=
  if r.any (fun p => p.1 == k) then
    r.map (fun p => if p.1 == k then (k, v) else p)
  else r ++ [(k, v)]

/-- The in-memory store `PDF_TESTS`: document keys in first-insertion order,
each with its record sequence, as a `defaultdict(list)` holds them. -/
abbrev Idx := List (JVal × List JRec)

/-- Python `list(pdf_tests.keys())`: the document names in insertion order. -/
def keysOf (idx : Idx) : List JVal := idx.map Prod.fst

/-- Python `PDF_TESTS.get(p, [])` (also the value `PDF_TESTS[p]` yields when
the key is present). -/
def getTests (idx : Idx) (p : JVal) : List JRec :=
  match idx.find? (fun e => e.1 == p) with
  | some e => e.2
  | none => []

/-- Python `pdf_tests[p].append(t)` on a `defaultdict(list)`: append to the
existing sequence for `p`, or create the key at the end with `[t]`. -/
def appendTest : Idx → JVal → JRec → Idx
  | [], p, t => [(p, [t])]
  | (q, ts) :: rest, p, t =>
    if q == p then (q, ts ++ [t]) :: rest
    else (q, ts) :: appendTest rest p t

/-- One line of the dataset file, classified by what `line.strip()` followed
by `json.loads` does to it: whitespace-only, a JSON decode failure, or a
successfully decoded JSON value. -/
inductive Line where
  | blank
  | malformed
  | json (v : JVal)

/-- An uncaught Python exception inside the per-line loop of `load_dataset`:
`AttributeError` when `.get` is called on a decoded non-dict value, or
`TypeError` when an unhashable decoded value is used as a dict key.  Only
`json.JSONDecodeError` is caught by the loop, so these abort the load. -/
inductive LoadCrash where
  | attributeError
  | unhashableKey

/-- The per-line loop of `load_dataset`: skip blank lines; warn and skip
lines that raise a JSON decode error; for a decoded object, read its `pdf`
field and, when truthy, append the record under that key; a decoded
non-object raises at `test.get`, and an unhashable truthy `pdf` value raises
at the dict indexing.  The `Nat` component counts emitted warnings. -/
def loadLines : List Line → Idx → Nat → Except LoadCrash (Idx × Nat)
  | [], idx, w => Except.ok (idx, w)
  | Line.blank :: ls, idx, w => loadLines ls idx w
  | Line.malformed :: ls, idx, w => loadLines ls idx (w + 1)
  | Line.json (JVal.obj r) :: ls, idx, w =>
    if truthy (pyGet r "pdf") then
      if hashable (pyGet r "pdf") then loadLines ls (appendTest idx (pyGet r "pdf") r) w
      else Except.error LoadCrash.unhashableKey
    else loadLines ls idx w
  | Line.json _ :: _, _, _ => Except.error LoadCrash.attributeError

/-- Python `load_dataset`, at the level of decoded lines: run the loop from
an empty store and return the store, `list(pdf_tests.keys())` and the
warning count. -/
def load_dataset (ls : List Line) : Except LoadCrash (Idx × List JVal × Nat) :=
  match loadLines ls [] 0 with
  | Except.ok (idx, w) => Except.ok (idx, keysOf idx, w)
  | Except.error e => Except.error e

/-- Python the flattening in `save_dataset`: `all_tests` extended by the
sequence of each document in `PDF_TESTS.values()` order; each record then becomes
one serialized line of the replacement file. -/
def save_dataset (idx : Idx) : List JRec :=
  (idx.map Prod.snd).flatten

/-- Inner loop of `find_next_unchecked_pdf`: whether some record of the
sequence has `test.get("checked") is None`. -/
def hasUnchecked (ts : List JRec) : Bool :=
  ts.any (fun t => pyGet t "checked" == JVal.null)

/-- Python `find_next_unchecked_pdf`: the first name in `ALL_PDFS` whose
record sequence contains an unchecked record, else `None`. -/
def find_next_unchecked_pdf (idx : Idx) (allPdfs : List JVal) : Option JVal :=
  allPdfs.find? (fun p => hasUnchecked (getTests idx p))

/-- The scan loop of `update_test`: assign the field on the first record
whose `id` equals `tid`, then `break`; later records are left untouched. -/
def updateFirst : List JRec → JVal → String → JVal → List JRec
  | [], _, _, _ => []
  | t :: rest, tid, f, v =>
    if pyGet t "id" == tid then setField t f v :: rest
    else t :: updateFirst rest tid f v

/-- The mutation `update_test` performs on the store: the sequence bound to
key `p` (if any) is rewritten by `updateFirst`; `PDF_TESTS.get(p, [])` on a
missing key yields `[]`, so nothing changes. -/
def applyEdit : Idx → JVal → JVal → String → JVal → Idx
  | [], _, _, _, _ => []
  | (q, ts) :: rest, p, tid, f, v =>
    if q == p then (q, updateFirst ts tid f v) :: rest
    else (q, ts) :: applyEdit rest p tid f v

/-- Python `update_test`: mutate the first matching record, persist the whole
flattened dataset, and answer `success` unconditionally. -/
def update_test (idx : Idx) (p tid : JVal) (f : String) (v : JVal) :
    Idx × List JRec × String :=
  (applyEdit idx p tid f v, save_dataset (applyEdit idx p tid f v), "success")

/-- Python membership `c in ALL_PDFS`: a left-to-right equality scan. -/
def pyIn (c : JVal) : List JVal → Bool
  | [] => false
  | x :: xs => x == c || pyIn c xs

/-- Python `ALL_PDFS.index(c)`: position of the first occurrence (its value
for an absent name is irrelevant, the call is guarded by membership). -/
def listIndex (c : JVal) : List JVal → Nat
  | [] => 0
  | x :: xs => if x == c then 0 else listIndex c xs + 1

/-- Python `next_pdf`: if the current name occurs in `ALL_PDFS` and is not
last, move to the next name; otherwise (last, absent, or `None`) fall back
to `find_next_unchecked_pdf`. -/
def next_pdf (idx : Idx) (pdfs : List JVal) (curr : Option JVal) : Option JVal :=
  match curr with
  | some c =>
    if pyIn c pdfs then
      if listIndex c pdfs < pdfs.length - 1 then some (pdfs.getD (listIndex c pdfs + 1) JVal.null)
      else find_next_unchecked_pdf idx pdfs
    else find_next_unchecked_pdf idx pdfs
  | none => find_next_unchecked_pdf idx pdfs

/-- Python `prev_pdf`: if the current name occurs in `ALL_PDFS` at a
positive index, move to the previous name; in every other case the cursor is
left as it is. -/
def prev_pdf (pdfs : List JVal) (curr : Option JVal) : Option JVal :=
  match curr with
  | some c =>
    if pyIn c pdfs then
      if 0 < listIndex c pdfs then some (pdfs.getD (listIndex c pdfs - 1) JVal.null)
      else some c
    else some c
  | none => none

/-- Python `goto_pdf`: move to `ALL_PDFS[i]` when `0 <= i < len(ALL_PDFS)`,
otherwise leave the cursor unchanged. -/
def goto_pdf (pdfs : List JVal) (curr : Option JVal) (i : Int) : Option JVal :=
  if 0 ≤ i ∧ i < (pdfs.length : Int) then some (pdfs.getD i.toNat JVal.null) else curr

/-- The records carried by a line stream, in stream order: the decoded
object of each object line. -/
def streamRecords : List Line → List JRec
  | [] => []
  | Line.json (JVal.obj r) :: ls => r :: streamRecords ls
  | _ :: ls => streamRecords ls

/-- A line of a well-formed record stream: blank, or a decoded object whose
required `pdf` field is a nonempty string (the document name required by the format). -/
def lineWF : Line → Bool
  | Line.blank => true
  | Line.json (JVal.obj r) =>
    match pyGet r "pdf" with
    | JVal.str s => s != ""
    | _ => false
  | _ => false

/-- A well-formed record stream in the sense of the record file format. -/
def streamWF (ls : List Line) : Bool := ls.all lineWF

/-- Distinctness of the document keys of the store, as Python dict keys are. -/
def keysNodup : List JVal → Bool
  | [] => true
  | p :: ps => !pyIn p ps && keysNodup ps

/-- Every record filed under a document key carries that key as its `pdf`
field — true of every store `load_dataset` builds. -/
def groupWF (p : JVal) (ts : List JRec) : Bool :=
  ts.all (fun t => pyGet t "pdf" == p)

/-- A store as `load_dataset` produces it: distinct truthy hashable keys,
each holding only records whose `pdf` field is that key. -/
def idxWF (idx : Idx) : Bool :=
  keysNodup (keysOf idx) && idx.all (fun e => truthy e.1 && hashable e.1 && groupWF e.1 e.2)

/-- The lookup the review workflow performs for a `(pdf, id)` pair: the
first record under the document key whose `id` field equals `tid`, exactly
the scan `update_test` runs. -/
def findRecord (idx : Idx) (p tid : JVal) : Option JRec :=
  (getTests idx p).find? (fun t => pyGet t "id" == tid)

/-- The persisted replacement file re-read as a line stream: each record is
serialized by `json.dumps` onto its own line, and decoding such a line gives
back the object of the record. -/
def linesOf (rs : List JRec) : List Line :=
  rs.map (fun r => Line.json (JVal.obj r))

/-- Whether a decoded JSON value is an object (a Python dict, the only
decoded value owning a `.get` method). -/
def isObj : JVal → Bool
  | JVal.obj _ => true
  | _ => false

/-- A line the loader survives: anything except a decoded object whose
truthy `pdf` is unhashable, and except a decoded non-object. -/
def lineBenign : Line → Bool
  | Line.json (JVal.obj r) => !truthy (pyGet r "pdf") || hashable (pyGet r "pdf")
  | Line.json _ => false
  | _ => true

/-- The store built by the loader loop along a crash-free stream: each
decoded object with a truthy `pdf` is appended under that key, everything
else is skipped. -/
def loadFold : List Line → Idx → Idx
  | [], idx => idx
  | Line.json (JVal.obj r) :: ls, idx =>
    if truthy (pyGet r "pdf") then loadFold ls (appendTest idx (pyGet r "pdf") r)
    else loadFold ls idx
  | _ :: ls, idx => loadFold ls idx

/-- Number of warnings the loop emits along a stream: one per line raising
a JSON decode error. -/
def warnCount : List Line → Nat
  | [] => 0
  | Line.malformed :: ls => warnCount ls + 1
  | _ :: ls => warnCount ls

/-- The records the loader retains from a stream: decoded objects with a
truthy `pdf`, in stream order. -/
def keptRecords : List Line → List JRec
  | [] => []
  | Line.json (JVal.obj r) :: ls =>
    if truthy (pyGet r "pdf") then r :: keptRecords ls else keptRecords ls
  | _ :: ls => keptRecords ls

/-- Whether a record belongs to document `p` by its `pdf` field. -/
def byPdf (p : JVal) (r : JRec) : Bool := pyGet r "pdf" == p

/-- Round-trip property of a stream: loading succeeds, the saved stream is
a permutation of the records of the input with every field-map intact, and for
each document the saved stream lists its records in the relative order
of the input. -/
def roundTripOK (ls : List Line) : Prop :=
  ∃ st, load_dataset ls = Except.ok st ∧
    (save_dataset st.1).Perm (streamRecords ls) ∧
    ∀ p, (save_dataset st.1).filter (byPdf p) = (streamRecords ls).filter (byPdf p)

/-- Durability of one edit: persist the mutated store, reload the persisted
stream, look up the same `(pdf, id)` pair, and find the edited value in the
edited field. -/
def editDurable (idx : Idx) (p tid : JVal) (f : String) (v : JVal) : Prop :=
  ∃ st, load_dataset (linesOf (update_test idx p tid f v).2.1) = Except.ok st ∧
    ∃ u, findRecord st.1 p tid = some u ∧ pyGet u f = v

section SampleData

/-- Sample unreviewed record of document `A`. -/
def recA1 : JRec := [("pdf", JVal.str "A"), ("id", JVal.str "a1"), ("type", JVal.str "present")]

/-- Sample record of document `A` sharing the id of `recA1`. -/
def recA1dup : JRec := [("pdf", JVal.str "A"), ("id", JVal.str "a1"), ("checked", JVal.str "verified")]

/-- Sample reviewed record of document `B`. -/
def recB1 : JRec := [("pdf", JVal.str "B"), ("id", JVal.str "b1"), ("checked", JVal.str "verified")]

/-- A small two-document store. -/
def idxAB : Idx := [(JVal.str "A", [recA1]), (JVal.str "B", [recB1])]

end SampleData

/-- The behavior of the three cursor moves when the recorded current
document is not in the ordered name list: `next_pdf` falls back to the
next-unchecked scan, while `prev_pdf` leaves the cursor untouched and
`goto_pdf` positions purely by index (in range moves there, out of range
leaves the cursor) — neither of the latter consults the scan. -/
def navMissingCurrent (idx : Idx) (pdfs : List JVal) (c : JVal) : Prop :=
  next_pdf idx pdfs (some c) = find_next_unchecked_pdf idx pdfs ∧
  prev_pdf pdfs (some c) = some c ∧
  ∀ i : Int, goto_pdf pdfs (some c) i =
    if 0 ≤ i ∧ i < (pdfs.length : Int) then some (pdfs.getD i.toNat JVal.null) else some c

/-- Navigation bounds: an out-of-range `gotoIndex` is a no-op, retreat from
the first document keeps the cursor there, and advance from the last
document resolves to the answer of the next-unchecked scan (a document name or
the none sentinel) — it is a total function and cannot raise. -/
def navBounds (idx : Idx) (pdfs : List JVal) : Prop :=
  (∀ (curr : Option JVal) (i : Int), ¬ (0 ≤ i ∧ i < (pdfs.length : Int)) →
    goto_pdf pdfs curr i = curr) ∧
  (∀ c rest, pdfs = c :: rest → prev_pdf pdfs (some c) = some c) ∧
  (∀ pre c, pdfs = pre ++ [c] → ¬ c ∈ pre →
    next_pdf idx pdfs (some c) = find_next_unchecked_pdf idx pdfs)

/-- Per-line behavior of the loader: a JSON-decode failure is skipped with
one warning; a decoded object with a null (equivalently missing) `pdf` is
silently dropped; a decoded object with truthy hashable `pdf` is appended
under that key — the sequence of the key grows at its end, the name list gains
the key only on first sight; and a line decoding to a non-object value
makes the loop raise, aborting the load. -/
def loadLineBehavior : Prop :=
  (∀ ls idx w, loadLines (Line.malformed :: ls) idx w = loadLines ls idx (w + 1)) ∧
  (∀ ls idx w (r : JRec), pyGet r "pdf" = JVal.null →
    loadLines (Line.json (JVal.obj r) :: ls) idx w = loadLines ls idx w) ∧
  (∀ ls idx w (r : JRec), truthy (pyGet r "pdf") = true → hashable (pyGet r "pdf") = true →
    loadLines (Line.json (JVal.obj r) :: ls) idx w =
      loadLines ls (appendTest idx (pyGet r "pdf") r) w) ∧
  (∀ ls idx w v, isObj v = false →
    loadLines (Line.json v :: ls) idx w = Except.error LoadCrash.attributeError) ∧
  (∀ idx (p : JVal) (t : JRec), p ∈ keysOf idx → keysOf (appendTest idx p t) = keysOf idx) ∧
  (∀ idx (p : JVal) (t : JRec), ¬ p ∈ keysOf idx →
    keysOf (appendTest idx p t) = keysOf idx ++ [p]) ∧
  (∀ idx (p : JVal) (t : JRec), getTests (appendTest idx p t) p = getTests idx p ++ [t])

/-- How a `shutil.move` replaces its destination. -/
inductive MoveKind where
  | atomicRename
  | copyThenDelete

/-- Placement of the temporary file `save_dataset` writes:
`tempfile.NamedTemporaryFile` is called without a `dir` argument, so the
file is created in the system temporary directory whatever directory the
target record file lives in. -/
def save_temp_dir (systemTempDir : String) : String → String :=
  fun _targetDir => systemTempDir

/-- Documented `shutil.move` semantics: a single atomic `os.rename` only
when source and destination are on the same filesystem; across filesystems
it copies onto the destination path — opening and truncating the target,
then writing — and finally deletes the source. -/
def shutil_move_kind (sameFilesystem : Bool) : MoveKind :=
  if sameFilesystem then MoveKind.atomicRename else MoveKind.copyThenDelete

/-- The replacement step `save_dataset` performs on the target record file
is exactly a `shutil.move` of its temporary file. -/
def save_replace_kind (sameFilesystem : Bool) : MoveKind :=
  shutil_move_kind sameFilesystem

/-- Specification of the next-unchecked scan over a store and its key
list: a returned name is the first one (in order) whose sequence holds an
unchecked record; some name is returned exactly when some record of the
whole store is unchecked; the sentinel is returned exactly when every
record has a non-null `checked`. -/
def nextUncheckedSpec (idx : Idx) : Prop :=
  (∀ p, find_next_unchecked_pdf idx (keysOf idx) = some p →
    ∃ pre post, keysOf idx = pre ++ p :: post ∧
      hasUnchecked (getTests idx p) = true ∧
      ∀ q ∈ pre, hasUnchecked (getTests idx q) = false) ∧
  ((∃ r ∈ save_dataset idx, pyGet r "checked" = JVal.null) ↔
    ∃ p, find_next_unchecked_pdf idx (keysOf idx) = some p) ∧
  (find_next_unchecked_pdf idx (keysOf idx) = none ↔
    ∀ r ∈ save_dataset idx, ¬ pyGet r "checked" = JVal.null)

/-- A sample well-formed stream: two records of document `A` around one of
document `B` and a blank line. -/
def exStream : List Line :=
  [Line.json (JVal.obj recA1), Line.blank, Line.json (JVal.obj recB1),
    Line.json (JVal.obj recA1dup)]

section Lemmas

theorem getTests_nil (p : JVal) : getTests [] p = [] := rfl

theorem getTests_cons (q : JVal) (ts : List JRec) (rest : Idx) (p : JVal) :
    getTests ((q, ts) :: rest) p = if q = p then ts else getTests rest p := by
  by_cases h : q = p
  · simp [getTests, List.find?, h]
  · have hb : (q == p) = false := beq_eq_false_iff_ne.mpr h
    simp [getTests, List.find?, hb, h]

theorem keysOf_nil : keysOf [] = [] := rfl

theorem keysOf_cons (q : JVal) (ts : List JRec) (rest : Idx) :
    keysOf ((q, ts) :: rest) = q :: keysOf rest := rfl

/-- A no-match scan leaves the sequence untouched. -/
theorem updateFirst_eq_self (ts : List JRec) (tid : JVal) (f : String) (v : JVal)
    (h : ∀ t ∈ ts, (pyGet t "id" == tid) = false) :
    updateFirst ts tid f v = ts := by
  induction ts with
  | nil => rfl
  | cons t rest ih =>
    have ht := h t (List.mem_cons_self t rest)
    simp only [updateFirst, ht, Bool.false_eq_true, if_false]
    rw [ih fun u hu => h u (List.mem_cons_of_mem t hu)]

/-- Scanning past an unmatched head. -/
theorem updateFirst_cons_no_match (t : JRec) (rest : List JRec) (tid : JVal)
    (f : String) (v : JVal) (h : (pyGet t "id" == tid) = false) :
    updateFirst (t :: rest) tid f v = t :: updateFirst rest tid f v := by
  simp [updateFirst, h]

/-- The scan rewrites exactly the first matching record. -/
theorem updateFirst_append (pre : List JRec) (t : JRec) (post : List JRec)
    (tid : JVal) (f : String) (v : JVal)
    (hpre : ∀ u ∈ pre, (pyGet u "id" == tid) = false)
    (ht : (pyGet t "id" == tid) = true) :
    updateFirst (pre ++ t :: post) tid f v = pre ++ setField t f v :: post := by
  induction pre with
  | nil => simp [updateFirst, ht]
  | cons u us ih =>
    have hu := hpre u (List.mem_cons_self u us)
    simp only [List.cons_append]
    rw [updateFirst_cons_no_match _ _ _ _ _ hu,
      ih fun x hx => hpre x (List.mem_cons_of_mem u hx)]

/-- The mutation rewrites the sequence bound to the edited document key by
`updateFirst` and no other entry. -/
theorem getTests_applyEdit (idx : Idx) (p tid : JVal) (f : String) (v : JVal) :
    getTests (applyEdit idx p tid f v) p = updateFirst (getTests idx p) tid f v := by
  induction idx with
  | nil => rfl
  | cons e rest ih =>
    obtain ⟨q, ts⟩ := e
    by_cases h : q = p
    · subst h
      simp [applyEdit, getTests_cons]
    · simp [applyEdit, h, getTests_cons, ih]

/-- Sequences of other documents are untouched by the mutation. -/
theorem getTests_applyEdit_ne (idx : Idx) (p tid : JVal) (f : String) (v : JVal)
    (q : JVal) (hq : q ≠ p) :
    getTests (applyEdit idx p tid f v) q = getTests idx q := by
  induction idx with
  | nil => rfl
  | cons e rest ih =>
    obtain ⟨k, ts⟩ := e
    by_cases h : k = p
    · subst h
      have hkq : k ≠ q := fun hkq => hq (hkq ▸ rfl)
      simp [applyEdit, getTests_cons, hkq]
    · by_cases h2 : k = q <;> simp [applyEdit, h, getTests_cons, h2, hq, ih]

/-- The mutation never changes the document key list. -/
theorem keysOf_applyEdit (idx : Idx) (p tid : JVal) (f : String) (v : JVal) :
    keysOf (applyEdit idx p tid f v) = keysOf idx := by
  induction idx with
  | nil => rfl
  | cons e rest ih =>
    obtain ⟨q, ts⟩ := e
    by_cases h : q = p <;> simp [applyEdit, h, keysOf_cons, ih]

/-- An edit that matches nothing leaves the whole store unchanged. -/
theorem applyEdit_eq_self (idx : Idx) (p tid : JVal) (f : String) (v : JVal)
    (h : ∀ t ∈ getTests idx p, (pyGet t "id" == tid) = false) :
    applyEdit idx p tid f v = idx := by
  induction idx with
  | nil => rfl
  | cons e rest ih =>
    obtain ⟨q, ts⟩ := e
    by_cases hq : q = p
    · subst hq
      have hts : getTests ((q, ts) :: rest) q = ts := by simp [getTests_cons]
      rw [hts] at h
      simp [applyEdit, updateFirst_eq_self ts tid f v h]
    · have hrest : ∀ t ∈ getTests rest p, (pyGet t "id" == tid) = false := by
        intro t htm
        exact h t (by rw [getTests_cons]; simp [hq]; exact htm)
      simp [applyEdit, hq, ih hrest]

end Lemmas

/-- C6: an `apply` naming a `(pdfName, recordId)` with no matching record is
a silent no-op: it returns success, leaves the store exactly as it was, and
still produces the full flattened dataset for persisting, so the persisted
content is the unchanged dataset. -/
theorem update_test_no_match_noop (idx : Idx) (p tid : JVal) (f : String) (v : JVal)
    (h : ∀ t ∈ getTests idx p, (pyGet t "id" == tid) = false) :
    update_test idx p tid f v = (idx, save_dataset idx, "success") := by
  unfold update_test
  rw [applyEdit_eq_self idx p tid f v h]

/-- Witness for C6 at a concrete store: no record of document `A` has id
`t1`, and the operation returns the unchanged store, its unchanged
serialization and success. -/
theorem update_test_no_match_noop_witness :
    (∀ t ∈ getTests idxAB (JVal.str "A"), (pyGet t "id" == JVal.str "t1") = false) ∧
      update_test idxAB (JVal.str "A") (JVal.str "t1") "text" (JVal.str "Revenue") =
        (idxAB, save_dataset idxAB, "success") :=
  ⟨by decide, update_test_no_match_noop idxAB (JVal.str "A") (JVal.str "t1") "text"
    (JVal.str "Revenue") (by decide)⟩

/-- C9: when the sequence of a document holds several records with the same id,
`apply` rewrites only the first of them (the scan breaks at the first
match); every record after it, matching id or not, is returned verbatim. -/
theorem apply_updates_first_match_only (idx : Idx) (p tid : JVal) (f : String) (v : JVal)
    (pre post : List JRec) (t : JRec)
    (hg : getTests idx p = pre ++ t :: post)
    (hpre : ∀ u ∈ pre, (pyGet u "id" == tid) = false)
    (ht : (pyGet t "id" == tid) = true) :
    getTests (update_test idx p tid f v).1 p = pre ++ setField t f v :: post := by
  show getTests (applyEdit idx p tid f v) p = _
  rw [getTests_applyEdit, hg, updateFirst_append pre t post tid f v hpre ht]

/-- Witness for C9: document `A` holds two records with id `a1`; the edit
lands on the first and the duplicate after it is untouched. -/
theorem apply_updates_first_match_only_witness :
    getTests [(JVal.str "A", [recA1, recA1dup])] (JVal.str "A") = [] ++ recA1 :: [recA1dup] ∧
      (∀ u ∈ ([] : List JRec), (pyGet u "id" == JVal.str "a1") = false) ∧
      (pyGet recA1 "id" == JVal.str "a1") = true ∧
      getTests (update_test [(JVal.str "A", [recA1, recA1dup])] (JVal.str "A") (JVal.str "a1")
          "checked" (JVal.str "rejected")).1 (JVal.str "A") =
        [] ++ setField recA1 "checked" (JVal.str "rejected") :: [recA1dup] :=
  ⟨by decide, by decide, by decide,
    apply_updates_first_match_only [(JVal.str "A", [recA1, recA1dup])] (JVal.str "A")
      (JVal.str "a1") "checked" (JVal.str "rejected") [] [recA1dup] recA1
      (by decide) (by decide) (by decide)⟩

/-- C10: a decoded record whose `pdf` field is present but falsy is dropped
by the loader exactly like a record with no `pdf` field: the store, the name
list and the warning count continue unchanged.  The enumerated falsy values
(empty string, null, zero, false) all fail the truthiness test, a record
with no `pdf` field reads back null and so also fails it, and a blank line
is skipped without touching the warning count. -/
theorem load_drops_falsy_pdf :
    (∀ ls idx w r, truthy (pyGet r "pdf") = false →
      loadLines (Line.json (JVal.obj r) :: ls) idx w = loadLines ls idx w) ∧
    (truthy (JVal.str "") = false ∧ truthy JVal.null = false ∧
      truthy (JVal.num 0) = false ∧ truthy (JVal.bool false) = false) ∧
    (∀ r : JRec, pyGet r "pdf" = JVal.null → truthy (pyGet r "pdf") = false) ∧
    (∀ ls idx w, loadLines (Line.blank :: ls) idx w = loadLines ls idx w) := by
  refine ⟨?_, by decide, ?_, ?_⟩
  · intro ls idx w r h
    simp [loadLines, h]
  · intro r h
    rw [h]; rfl
  · intro ls idx w
    rfl

/-- Witness for C10 at concrete inputs: a record carrying `pdf = ""` is
skipped by the loader step, falsiness of the enumerated values holds, a
record lacking `pdf` reads back null, and a blank line is skipped. -/
theorem load_drops_falsy_pdf_witness :
    loadLines (Line.json (JVal.obj [("pdf", JVal.str ""), ("id", JVal.str "x")]) :: []) [] 0 =
        loadLines [] [] 0 ∧
      truthy (JVal.str "") = false ∧
      truthy (pyGet [("id", JVal.str "x")] "pdf") = false ∧
      loadLines (Line.blank :: []) [] 0 = loadLines [] [] 0 :=
  ⟨load_drops_falsy_pdf.1 [] [] 0 [("pdf", JVal.str ""), ("id", JVal.str "x")] (by decide),
    load_drops_falsy_pdf.2.1.1,
    load_drops_falsy_pdf.2.2.1 [("id", JVal.str "x")] (by decide),
    load_drops_falsy_pdf.2.2.2 [] [] 0⟩

section AppendLemmas

/-- Appending a record under an already-present document key leaves the
ordered name list unchanged. -/
theorem keysOf_appendTest_mem (idx : Idx) (p : JVal) (t : JRec) (h : p ∈ keysOf idx) :
    keysOf (appendTest idx p t) = keysOf idx := by
  induction idx with
  | nil => simp [keysOf] at h
  | cons e rest ih =>
    obtain ⟨q, ts⟩ := e
    by_cases hq : q = p
    · subst hq; simp [appendTest, keysOf_cons]
    · have hb : (q == p) = false := beq_eq_false_iff_ne.mpr hq
      have hmem : p ∈ keysOf rest := by
        rw [keysOf_cons] at h
        cases h with
        | head => exact absurd rfl hq
        | tail _ h => exact h
      simp [appendTest, hb, keysOf_cons, ih hmem]

/-- Appending a record under a fresh document key appends the key at the end
of the ordered name list. -/
theorem keysOf_appendTest_not_mem (idx : Idx) (p : JVal) (t : JRec) (h : ¬ p ∈ keysOf idx) :
    keysOf (appendTest idx p t) = keysOf idx ++ [p] := by
  induction idx with
  | nil => rfl
  | cons e rest ih =>
    obtain ⟨q, ts⟩ := e
    rw [keysOf_cons] at h
    have hq : q ≠ p := fun hqp => h (hqp ▸ List.mem_cons_self q (keysOf rest))
    have hb : (q == p) = false := beq_eq_false_iff_ne.mpr hq
    have hmem : ¬ p ∈ keysOf rest := fun hm => h (List.mem_cons_of_mem q hm)
    simp [appendTest, hb, keysOf_cons, ih hmem]

/-- Appending under a key extends exactly the sequence of that key at its end. -/
theorem getTests_appendTest_self (idx : Idx) (p : JVal) (t : JRec) :
    getTests (appendTest idx p t) p = getTests idx p ++ [t] := by
  induction idx with
  | nil => simp [appendTest, getTests_cons, getTests_nil]
  | cons e rest ih =>
    obtain ⟨q, ts⟩ := e
    by_cases hq : q = p
    · subst hq; simp [appendTest, getTests_cons]
    · have hb : (q == p) = false := beq_eq_false_iff_ne.mpr hq
      simp [appendTest, hb, hq, getTests_cons, ih]

/-- Sequences of other document keys are untouched by an append. -/
theorem getTests_appendTest_ne (idx : Idx) (p : JVal) (t : JRec) (q : JVal) (h : p ≠ q) :
    getTests (appendTest idx p t) q = getTests idx q := by
  induction idx with
  | nil => simp [appendTest, getTests_cons, h]
  | cons e rest ih =>
    obtain ⟨k, ts⟩ := e
    by_cases hk : k = p
    · subst hk
      simp [appendTest, getTests_cons, fun hkq : k = q => h hkq]
    · have hb : (k == p) = false := beq_eq_false_iff_ne.mpr hk
      by_cases hk2 : k = q <;> simp [appendTest, hb, getTests_cons, hk2, Ne.symm h, ih]

/-- Membership scan finds an element appended at the end. -/
theorem pyIn_concat_self (pre : List JVal) (c : JVal) : pyIn c (pre ++ [c]) = true := by
  induction pre with
  | nil => simp [pyIn]
  | cons a as ih => simp [pyIn, ih]

/-- First occurrence index of an element appended behind names not equal to
it (Python `list.index`). -/
theorem listIndex_concat_self (pre : List JVal) (c : JVal) (h : ¬ c ∈ pre) :
    listIndex c (pre ++ [c]) = pre.length := by
  induction pre with
  | nil => simp [listIndex]
  | cons a as ih =>
    have hac : (a == c) = false := by
      refine beq_eq_false_iff_ne.mpr fun hac => h ?_
      exact hac ▸ List.mem_cons_self a as
    have hmem : ¬ c ∈ as := fun hm => h (List.mem_cons_of_mem a hm)
    simp [listIndex, hac, ih hmem]

end AppendLemmas

section LoadLemmas

theorem pyIn_append (c : JVal) (xs ys : List JVal) :
    pyIn c (xs ++ ys) = (pyIn c xs || pyIn c ys) := by
  induction xs with
  | nil => simp [pyIn]
  | cons a as ih => simp [pyIn, ih, Bool.or_assoc]

theorem pyIn_iff_mem (c : JVal) (xs : List JVal) : pyIn c xs = true ↔ c ∈ xs := by
  induction xs with
  | nil => simp [pyIn]
  | cons a as ih =>
    simp only [pyIn, Bool.or_eq_true, ih, List.mem_cons, beq_iff_eq]
    constructor
    · rintro (h | h)
      · exact Or.inl h.symm
      · exact Or.inr h
    · rintro (h | h)
      · exact Or.inl h.symm
      · exact Or.inr h

theorem keysNodup_concat (ks : List JVal) (p : JVal) (h1 : keysNodup ks = true)
    (h2 : ¬ p ∈ ks) : keysNodup (ks ++ [p]) = true := by
  induction ks with
  | nil => simp [keysNodup, pyIn]
  | cons a as ih =>
    simp only [keysNodup, Bool.and_eq_true] at h1
    have hpa : a ≠ p := fun e => h2 (e ▸ List.mem_cons_self a as)
    have hrest : ¬ p ∈ as := fun hm => h2 (List.mem_cons_of_mem a hm)
    simp only [List.cons_append, keysNodup, Bool.and_eq_true]
    refine ⟨?_, ih h1.2 hrest⟩
    rw [List.append_eq, pyIn_append]
    have h3 : pyIn a as = false := by
      cases hv : pyIn a as
      · rfl
      · rw [hv] at h1; exact absurd h1.1 (by simp)
    have h4 : pyIn a [p] = false := by
      simp [pyIn, beq_eq_false_iff_ne.mpr (Ne.symm hpa)]
    simp [h3, h4]

theorem loadLines_benign (ls : List Line) : ∀ (idx : Idx) (w : Nat),
    ls.all lineBenign = true →
    loadLines ls idx w = Except.ok (loadFold ls idx, w + warnCount ls) := by
  induction ls with
  | nil =>
    intro idx w _
    simp [loadLines, loadFold, warnCount]
  | cons l ls ih =>
    intro idx w h
    rw [List.all_cons, Bool.and_eq_true] at h
    cases l with
    | blank =>
      show loadLines ls idx w = _
      rw [ih idx w h.2]
      rfl
    | malformed =>
      show loadLines ls idx (w + 1) = _
      rw [ih idx (w + 1) h.2]
      have harith : w + 1 + warnCount ls = w + warnCount (Line.malformed :: ls) := by
        show _ = w + (warnCount ls + 1)
        omega
      rw [harith]
      rfl
    | json v =>
      cases v with
      | obj r =>
        cases ht : truthy (pyGet r "pdf") with
        | false =>
          have hstep : loadLines (Line.json (JVal.obj r) :: ls) idx w = loadLines ls idx w := by
            simp [loadLines, ht]
          rw [hstep, ih idx w h.2]
          simp [loadFold, warnCount, ht]
        | true =>
          have hh : hashable (pyGet r "pdf") = true := by
            have := h.1
            simp only [lineBenign, ht, Bool.not_true, Bool.false_or] at this
            exact this
          have hstep : loadLines (Line.json (JVal.obj r) :: ls) idx w =
              loadLines ls (appendTest idx (pyGet r "pdf") r) w := by
            simp [loadLines, ht, hh]
          rw [hstep, ih _ w h.2]
          simp [loadFold, warnCount, ht]
      | null => exact absurd h.1 (by simp [lineBenign])
      | bool b => exact absurd h.1 (by simp [lineBenign])
      | num n => exact absurd h.1 (by simp [lineBenign])
      | str s => exact absurd h.1 (by simp [lineBenign])
      | arr xs => exact absurd h.1 (by simp [lineBenign])

/-- Appending a record under any key inserts exactly that record into the
flattened dataset. -/
theorem save_appendTest_perm (idx : Idx) (p : JVal) (t : JRec) :
    (save_dataset (appendTest idx p t)).Perm (save_dataset idx ++ [t]) := by
  induction idx with
  | nil => simp [save_dataset, appendTest]
  | cons e rest ih =>
    obtain ⟨q, ts⟩ := e
    by_cases hq : q = p
    · subst hq
      have hstep : appendTest ((q, ts) :: rest) q t = (q, ts ++ [t]) :: rest := by
        simp [appendTest]
      rw [hstep]
      show ((ts ++ [t]) ++ save_dataset rest).Perm ((ts ++ save_dataset rest) ++ [t])
      have hmid : (ts ++ ([t] ++ save_dataset rest)).Perm (ts ++ (save_dataset rest ++ [t])) :=
        List.Perm.append_left ts List.perm_append_comm
      simpa [List.append_assoc] using hmid
    · have hb : (q == p) = false := beq_eq_false_iff_ne.mpr hq
      have hstep : appendTest ((q, ts) :: rest) p t = (q, ts) :: appendTest rest p t := by
        simp [appendTest, hb]
      rw [hstep]
      show (ts ++ save_dataset (appendTest rest p t)).Perm ((ts ++ save_dataset rest) ++ [t])
      have hmid : (ts ++ save_dataset (appendTest rest p t)).Perm
          (ts ++ (save_dataset rest ++ [t])) := List.Perm.append_left ts ih
      simpa [List.append_assoc] using hmid

/-- The store of the loop holds, as a multiset, the prior store plus every
retained record of the stream. -/
theorem save_loadFold_perm (ls : List Line) : ∀ idx : Idx,
    (save_dataset (loadFold ls idx)).Perm (save_dataset idx ++ keptRecords ls) := by
  induction ls with
  | nil => intro idx; simp [loadFold, keptRecords]
  | cons l ls ih =>
    intro idx
    cases l with
    | blank => simpa [loadFold, keptRecords] using ih idx
    | malformed => simpa [loadFold, keptRecords] using ih idx
    | json v =>
      cases v with
      | obj r =>
        cases ht : truthy (pyGet r "pdf") with
        | false => simpa [loadFold, keptRecords, ht] using ih idx
        | true =>
          have h1 := ih (appendTest idx (pyGet r "pdf") r)
          have h2 := (save_appendTest_perm idx (pyGet r "pdf") r).append_right (keptRecords ls)
          have h3 : loadFold (Line.json (JVal.obj r) :: ls) idx =
              loadFold ls (appendTest idx (pyGet r "pdf") r) := by
            simp [loadFold, ht]
          have h4 : keptRecords (Line.json (JVal.obj r) :: ls) = r :: keptRecords ls := by
            simp [keptRecords, ht]
          rw [h3, h4]
          have h5 : (save_dataset idx ++ [r]) ++ keptRecords ls =
              save_dataset idx ++ r :: keptRecords ls := by
            simp
          exact h5 ▸ (h1.trans h2)
      | null => simpa [loadFold, keptRecords] using ih idx
      | bool b => simpa [loadFold, keptRecords] using ih idx
      | num n => simpa [loadFold, keptRecords] using ih idx
      | str s => simpa [loadFold, keptRecords] using ih idx
      | arr xs => simpa [loadFold, keptRecords] using ih idx

/-- Grouping along the stream: the sequence of each document key after the loop
is its prior sequence followed by the retained records carrying that key. -/
theorem getTests_loadFold (ls : List Line) : ∀ (idx : Idx) (p : JVal),
    getTests (loadFold ls idx) p = getTests idx p ++ (keptRecords ls).filter (byPdf p) := by
  induction ls with
  | nil => intro idx p; simp [loadFold, keptRecords]
  | cons l ls ih =>
    intro idx p
    cases l with
    | blank => simpa [loadFold, keptRecords] using ih idx p
    | malformed => simpa [loadFold, keptRecords] using ih idx p
    | json v =>
      cases v with
      | obj r =>
        cases ht : truthy (pyGet r "pdf") with
        | false => simpa [loadFold, keptRecords, ht] using ih idx p
        | true =>
          have h3 : loadFold (Line.json (JVal.obj r) :: ls) idx =
              loadFold ls (appendTest idx (pyGet r "pdf") r) := by
            simp [loadFold, ht]
          have h4 : keptRecords (Line.json (JVal.obj r) :: ls) = r :: keptRecords ls := by
            simp [keptRecords, ht]
          rw [h3, h4, ih]
          by_cases hp : pyGet r "pdf" = p
          · have hb : byPdf p r = true := by
              simp [byPdf, hp]
            rw [hp, getTests_appendTest_self]
            simp [List.filter_cons, hb]
          · have hb : byPdf p r = false := by
              simp only [byPdf]
              exact beq_eq_false_iff_ne.mpr hp
            rw [getTests_appendTest_ne idx (pyGet r "pdf") r p hp]
            simp [List.filter_cons, hb]
      | null => simpa [loadFold, keptRecords] using ih idx p
      | bool b => simpa [loadFold, keptRecords] using ih idx p
      | num n => simpa [loadFold, keptRecords] using ih idx p
      | str s => simpa [loadFold, keptRecords] using ih idx p
      | arr xs => simpa [loadFold, keptRecords] using ih idx p

/-- A well-formed line survives the loop. -/
theorem streamWF_benign (ls : List Line) (h : streamWF ls = true) :
    ls.all lineBenign = true := by
  rw [List.all_eq_true]
  intro l hl
  have hwf : lineWF l = true := by
    rw [streamWF, List.all_eq_true] at h
    exact h l hl
  cases l with
  | blank => rfl
  | malformed => exact absurd hwf (by simp [lineWF])
  | json v =>
    cases v with
    | obj r =>
      simp only [lineBenign]
      cases hp : pyGet r "pdf" with
      | str s =>
        simp [truthy, hashable]
      | null => rw [lineWF] at hwf; rw [hp] at hwf; exact absurd hwf (by simp)
      | bool b => rw [lineWF] at hwf; rw [hp] at hwf; exact absurd hwf (by simp)
      | num n => rw [lineWF] at hwf; rw [hp] at hwf; exact absurd hwf (by simp)
      | arr xs => rw [lineWF] at hwf; rw [hp] at hwf; exact absurd hwf (by simp)
      | obj fs => rw [lineWF] at hwf; rw [hp] at hwf; exact absurd hwf (by simp)
    | null => exact absurd hwf (by simp [lineWF])
    | bool b => exact absurd hwf (by simp [lineWF])
    | num n => exact absurd hwf (by simp [lineWF])
    | str s => exact absurd hwf (by simp [lineWF])
    | arr xs => exact absurd hwf (by simp [lineWF])

/-- A well-formed stream decodes without a single warning. -/
theorem streamWF_warnCount (ls : List Line) (h : streamWF ls = true) :
    warnCount ls = 0 := by
  induction ls with
  | nil => rfl
  | cons l ls ih =>
    rw [streamWF, List.all_cons, Bool.and_eq_true] at h
    have hrest : warnCount ls = 0 := ih h.2
    cases l with
    | blank => simpa [warnCount] using hrest
    | malformed => exact absurd h.1 (by simp [lineWF])
    | json v => simpa [warnCount] using hrest

/-- Along a well-formed stream every record line is retained. -/
theorem streamWF_kept (ls : List Line) (h : streamWF ls = true) :
    keptRecords ls = streamRecords ls := by
  induction ls with
  | nil => rfl
  | cons l ls ih =>
    rw [streamWF, List.all_cons, Bool.and_eq_true] at h
    have hrest := ih h.2
    cases l with
    | blank => simpa [keptRecords, streamRecords] using hrest
    | malformed => exact absurd h.1 (by simp [lineWF])
    | json v =>
      cases v with
      | obj r =>
        have ht : truthy (pyGet r "pdf") = true := by
          have hwf := h.1
          rw [lineWF] at hwf
          cases hp : pyGet r "pdf" with
          | str s => rw [hp] at hwf; simpa [truthy] using hwf
          | null => rw [hp] at hwf; exact absurd hwf (by simp)
          | bool b => rw [hp] at hwf; exact absurd hwf (by simp)
          | num n => rw [hp] at hwf; exact absurd hwf (by simp)
          | arr xs => rw [hp] at hwf; exact absurd hwf (by simp)
          | obj fs => rw [hp] at hwf; exact absurd hwf (by simp)
        simp [keptRecords, streamRecords, ht, hrest]
      | null => exact absurd h.1 (by simp [lineWF])
      | bool b => exact absurd h.1 (by simp [lineWF])
      | num n => exact absurd h.1 (by simp [lineWF])
      | str s => exact absurd h.1 (by simp [lineWF])
      | arr xs => exact absurd h.1 (by simp [lineWF])

end LoadLemmas

section FieldLemmas

theorem pyGet_cons (k : String) (v : JVal) (rest : JRec) (q : String) :
    pyGet ((k, v) :: rest) q = if k = q then v else pyGet rest q := by
  by_cases h : k = q
  · simp [pyGet, List.find?, h]
  · have hb : (k == q) = false := beq_eq_false_iff_ne.mpr h
    simp [pyGet, List.find?, hb, h]

theorem pyGet_mapSet_self (r : JRec) (f : String) (v : JVal)
    (h : r.any (fun pr => pr.1 == f) = true) :
    pyGet (r.map (fun pr => if pr.1 == f then (f, v) else pr)) f = v := by
  induction r with
  | nil => simp at h
  | cons pr rest ih =>
    obtain ⟨k, w⟩ := pr
    by_cases hk : k = f
    · subst hk
      simp [List.map_cons, pyGet_cons]
    · have hb : (k == f) = false := beq_eq_false_iff_ne.mpr hk
      have h2 : rest.any (fun pr => pr.1 == f) = true := by
        rw [List.any_cons] at h
        simpa [hb] using h
      simp only [List.map_cons, hb, Bool.false_eq_true, if_false]
      rw [pyGet_cons, if_neg hk]
      exact ih h2

theorem pyGet_mapSet_ne (r : JRec) (f : String) (v : JVal) (q : String) (hq : q ≠ f) :
    pyGet (r.map (fun pr => if pr.1 == f then (f, v) else pr)) q = pyGet r q := by
  induction r with
  | nil => rfl
  | cons pr rest ih =>
    obtain ⟨k, w⟩ := pr
    by_cases hk : k = f
    · subst hk
      have hkq : k ≠ q := fun e => hq e.symm
      simp only [List.map_cons, beq_self_eq_true, if_true]
      rw [pyGet_cons, if_neg hkq, pyGet_cons, if_neg hkq]
      exact ih
    · have hb : (k == f) = false := beq_eq_false_iff_ne.mpr hk
      simp only [List.map_cons, hb, Bool.false_eq_true, if_false]
      rw [pyGet_cons, pyGet_cons]
      by_cases hk2 : k = q
      · simp [hk2]
      · rw [if_neg hk2, if_neg hk2]
        exact ih

theorem pyGet_concat_self (r : JRec) (f : String) (v : JVal)
    (h : r.any (fun pr => pr.1 == f) = false) :
    pyGet (r ++ [(f, v)]) f = v := by
  induction r with
  | nil => simp [pyGet_cons]
  | cons pr rest ih =>
    obtain ⟨k, w⟩ := pr
    rw [List.any_cons] at h
    have hk : (k == f) = false := by
      cases hv : (k == f)
      · rfl
      · rw [hv] at h; simp at h
    have h2 : rest.any (fun pr => pr.1 == f) = false := by
      cases hv : rest.any (fun pr => pr.1 == f)
      · rfl
      · rw [hv] at h; simp at h
    have hkf : k ≠ f := by
      intro e
      rw [e] at hk
      simp at hk
    rw [List.cons_append, pyGet_cons, if_neg hkf]
    exact ih h2

theorem pyGet_concat_ne (r : JRec) (f : String) (v : JVal) (q : String) (hq : q ≠ f) :
    pyGet (r ++ [(f, v)]) q = pyGet r q := by
  induction r with
  | nil =>
    have hfq : f ≠ q := fun e => hq e.symm
    simp [pyGet_cons, hfq, pyGet]
  | cons pr rest ih =>
    obtain ⟨k, w⟩ := pr
    rw [List.cons_append, pyGet_cons, pyGet_cons]
    by_cases hk : k = q
    · simp [hk]
    · rw [if_neg hk, if_neg hk]
      exact ih

/-- An assignment makes the assigned field read back the assigned value. -/
theorem pyGet_setField_self (r : JRec) (f : String) (v : JVal) :
    pyGet (setField r f v) f = v := by
  unfold setField
  cases h : r.any (fun pr => pr.1 == f) with
  | true =>
    simp only [h, if_true]
    exact pyGet_mapSet_self r f v h
  | false =>
    simp only [h, Bool.false_eq_true, if_false]
    exact pyGet_concat_self r f v h

/-- An assignment leaves every other field reading back as before. -/
theorem pyGet_setField_ne (r : JRec) (f : String) (v : JVal) (q : String) (hq : q ≠ f) :
    pyGet (setField r f v) q = pyGet r q := by
  unfold setField
  cases h : r.any (fun pr => pr.1 == f) with
  | true =>
    simp only [h, if_true]
    exact pyGet_mapSet_ne r f v q hq
  | false =>
    simp only [h, Bool.false_eq_true, if_false]
    exact pyGet_concat_ne r f v q hq

/-- After the scan rewrites the first matching record, looking the id up
again finds exactly the rewritten record, which carries the new value. -/
theorem find?_updateFirst (ts : List JRec) (tid : JVal) (f : String) (v : JVal)
    (hf : f ≠ "id") (h : ∃ t ∈ ts, (pyGet t "id" == tid) = true) :
    ∃ u, (updateFirst ts tid f v).find? (fun t => pyGet t "id" == tid) = some u ∧
      pyGet u f = v := by
  induction ts with
  | nil =>
    obtain ⟨t, ht, _⟩ := h
    cases ht
  | cons t rest ih =>
    by_cases hm : (pyGet t "id" == tid) = true
    · refine ⟨setField t f v, ?_, pyGet_setField_self t f v⟩
      have hid : pyGet (setField t f v) "id" = pyGet t "id" :=
        pyGet_setField_ne t f v "id" (Ne.symm hf)
      rw [updateFirst, if_pos hm, List.find?_cons]
      simp [hid, hm]
    · have hm2 : (pyGet t "id" == tid) = false := by
        cases hv : (pyGet t "id" == tid)
        · rfl
        · exact absurd hv hm
      have h2 : ∃ u ∈ rest, (pyGet u "id" == tid) = true := by
        obtain ⟨u, hu, hp⟩ := h
        cases hu with
        | head => exact absurd hp hm
        | tail _ hu => exact ⟨u, hu, hp⟩
      obtain ⟨u, hfind, hval⟩ := ih h2
      refine ⟨u, ?_, hval⟩
      rw [updateFirst, if_neg (by rw [hm2]; exact Bool.false_ne_true), List.find?_cons]
      simp [hm2, hfind]

end FieldLemmas

section WFLemmas

theorem idxWF_cons (q : JVal) (ts : List JRec) (rest : Idx) :
    idxWF ((q, ts) :: rest) = true ↔
      pyIn q (keysOf rest) = false ∧ truthy q = true ∧ hashable q = true ∧
        groupWF q ts = true ∧ idxWF rest = true := by
  simp only [idxWF, keysOf_cons, keysNodup, List.all_cons, Bool.and_eq_true, Bool.not_eq_true']
  tauto

theorem groupWF_concat (q : JVal) (ts : List JRec) (t : JRec) :
    groupWF q (ts ++ [t]) = (groupWF q ts && (pyGet t "pdf" == q)) := by
  simp [groupWF, List.all_append, List.all_cons]

/-- Appending a record whose `pdf` field is the key keeps the store
well-formed. -/
theorem idxWF_appendTest (idx : Idx) (p : JVal) (t : JRec)
    (h : idxWF idx = true) (hp1 : truthy p = true) (hp2 : hashable p = true)
    (ht : (pyGet t "pdf" == p) = true) :
    idxWF (appendTest idx p t) = true := by
  induction idx with
  | nil =>
    show idxWF [(p, [t])] = true
    rw [idxWF_cons]
    exact ⟨rfl, hp1, hp2, by simp [groupWF, ht], rfl⟩
  | cons e rest ih =>
    obtain ⟨q, ts⟩ := e
    rw [idxWF_cons] at h
    obtain ⟨hnin, hqt, hqh, hqg, hrest⟩ := h
    by_cases hq : q = p
    · subst hq
      have hstep : appendTest ((q, ts) :: rest) q t = (q, ts ++ [t]) :: rest := by
        simp [appendTest]
      rw [hstep, idxWF_cons]
      exact ⟨hnin, hqt, hqh, by rw [groupWF_concat, hqg, ht]; rfl, hrest⟩
    · have hb : (q == p) = false := beq_eq_false_iff_ne.mpr hq
      have hstep : appendTest ((q, ts) :: rest) p t = (q, ts) :: appendTest rest p t := by
        simp [appendTest, hb]
      rw [hstep, idxWF_cons]
      refine ⟨?_, hqt, hqh, hqg, ih hrest⟩
      by_cases hm : p ∈ keysOf rest
      · rw [keysOf_appendTest_mem rest p t hm]
        exact hnin
      · rw [keysOf_appendTest_not_mem rest p t hm, pyIn_append, hnin]
        have : pyIn q [p] = false := by
          simp [pyIn, beq_eq_false_iff_ne.mpr (Ne.symm hq)]
        rw [this]
        rfl

/-- The loop keeps the store well-formed along a crash-free stream. -/
theorem idxWF_loadFold (ls : List Line) : ∀ idx : Idx, ls.all lineBenign = true →
    idxWF idx = true → idxWF (loadFold ls idx) = true := by
  induction ls with
  | nil => intro idx _ h; exact h
  | cons l ls ih =>
    intro idx hben h
    rw [List.all_cons, Bool.and_eq_true] at hben
    cases l with
    | blank => exact ih idx hben.2 h
    | malformed => exact ih idx hben.2 h
    | json v =>
      cases v with
      | obj r =>
        cases htr : truthy (pyGet r "pdf") with
        | false =>
          have hstep : loadFold (Line.json (JVal.obj r) :: ls) idx = loadFold ls idx := by
            simp [loadFold, htr]
          rw [hstep]
          exact ih idx hben.2 h
        | true =>
          have hh : hashable (pyGet r "pdf") = true := by
            have := hben.1
            simp only [lineBenign, htr, Bool.not_true, Bool.false_or] at this
            exact this
          have hstep : loadFold (Line.json (JVal.obj r) :: ls) idx =
              loadFold ls (appendTest idx (pyGet r "pdf") r) := by
            simp [loadFold, htr]
          rw [hstep]
          exact ih _ hben.2 (idxWF_appendTest idx (pyGet r "pdf") r h htr hh
            (beq_self_eq_true (pyGet r "pdf")))
      | null => exact absurd hben.1 (by simp [lineBenign])
      | bool b => exact absurd hben.1 (by simp [lineBenign])
      | num n => exact absurd hben.1 (by simp [lineBenign])
      | str s => exact absurd hben.1 (by simp [lineBenign])
      | arr xs => exact absurd hben.1 (by simp [lineBenign])

/-- No record of a well-formed store with `p` absent from its keys carries
`p` as its `pdf` field. -/
theorem filter_save_eq_nil (idx : Idx) (p : JVal) : idxWF idx = true →
    pyIn p (keysOf idx) = false →
    (save_dataset idx).filter (byPdf p) = [] := by
  induction idx with
  | nil => intro _ _; rfl
  | cons e rest ih =>
    intro h hnin
    obtain ⟨q, ts⟩ := e
    rw [idxWF_cons] at h
    obtain ⟨_, _, _, hqg, hrest⟩ := h
    rw [keysOf_cons] at hnin
    have hqp : (q == p) = false := by
      cases hv : (q == p)
      · rfl
      · rw [pyIn, hv] at hnin; simp at hnin
    have hnin2 : pyIn p (keysOf rest) = false := by
      cases hv : pyIn p (keysOf rest)
      · rfl
      · rw [pyIn, hv] at hnin; simp at hnin
    have hsave : save_dataset ((q, ts) :: rest) = ts ++ save_dataset rest := rfl
    rw [hsave, List.filter_append, ih hrest hnin2]
    have hts : ts.filter (byPdf p) = [] := by
      rw [List.filter_eq_nil_iff]
      intro t htm
      have hge := (List.all_eq_true.mp hqg) t htm
      have hgq : pyGet t "pdf" = q := eq_of_beq hge
      simp only [byPdf, hgq]
      rw [hqp]
      exact Bool.false_ne_true
    rw [hts]
    rfl

/-- Flatten-then-filter recovers, for each document key, exactly the
sequence a well-formed store binds to it. -/
theorem filter_save_eq_getTests (idx : Idx) (p : JVal) (h : idxWF idx = true) :
    (save_dataset idx).filter (byPdf p) = getTests idx p := by
  induction idx with
  | nil => rfl
  | cons e rest ih =>
    obtain ⟨q, ts⟩ := e
    rw [idxWF_cons] at h
    obtain ⟨hnin, hqt, hqh, hqg, hrest⟩ := h
    have hsave : save_dataset ((q, ts) :: rest) = ts ++ save_dataset rest := rfl
    rw [hsave, List.filter_append, getTests_cons]
    by_cases hq : q = p
    · subst hq
      have h1 : ts.filter (byPdf q) = ts := by
        rw [List.filter_eq_self]
        intro t htm
        have hge := (List.all_eq_true.mp hqg) t htm
        simp only [byPdf]
        exact hge
      rw [h1, filter_save_eq_nil rest q hrest hnin, if_pos rfl, List.append_nil]
    · have h1 : ts.filter (byPdf p) = [] := by
        rw [List.filter_eq_nil_iff]
        intro t htm
        have hge := (List.all_eq_true.mp hqg) t htm
        have hgq : pyGet t "pdf" = q := eq_of_beq hge
        simp only [byPdf, hgq]
        rw [beq_eq_false_iff_ne.mpr hq]
        exact Bool.false_ne_true
      rw [h1, ih hrest, if_neg hq, List.nil_append]

/-- Every record of a well-formed store carries a truthy hashable `pdf`. -/
theorem save_mem_props (idx : Idx) (h : idxWF idx = true) :
    ∀ r ∈ save_dataset idx,
      truthy (pyGet r "pdf") = true ∧ hashable (pyGet r "pdf") = true := by
  induction idx with
  | nil => intro r hr; cases hr
  | cons e rest ih =>
    intro r hr
    obtain ⟨q, ts⟩ := e
    rw [idxWF_cons] at h
    obtain ⟨_, hqt, hqh, hqg, hrest⟩ := h
    have hsave : save_dataset ((q, ts) :: rest) = ts ++ save_dataset rest := rfl
    rw [hsave] at hr
    rcases List.mem_append.mp hr with hm | hm
    · have hge := (List.all_eq_true.mp hqg) r hm
      have hgq : pyGet r "pdf" = q := eq_of_beq hge
      rw [hgq]
      exact ⟨hqt, hqh⟩
    · exact ih hrest r hm

/-- The scan rewrite keeps a group homogeneous when the edited field is
not `pdf`. -/
theorem groupWF_updateFirst (q : JVal) (ts : List JRec) (tid : JVal) (f : String) (v : JVal)
    (hf : f ≠ "pdf") (h : groupWF q ts = true) :
    groupWF q (updateFirst ts tid f v) = true := by
  induction ts with
  | nil => rfl
  | cons t rest ih =>
    rw [groupWF, List.all_cons, Bool.and_eq_true] at h
    by_cases hm : (pyGet t "id" == tid) = true
    · rw [updateFirst, if_pos hm, groupWF, List.all_cons, Bool.and_eq_true]
      constructor
      · rw [pyGet_setField_ne t f v "pdf" (Ne.symm hf)]
        exact h.1
      · exact h.2
    · have hm2 : (pyGet t "id" == tid) = false := by
        cases hv : (pyGet t "id" == tid)
        · rfl
        · exact absurd hv hm
      rw [updateFirst, if_neg (by rw [hm2]; exact Bool.false_ne_true), groupWF,
        List.all_cons, Bool.and_eq_true]
      exact ⟨h.1, ih h.2⟩

/-- The mutation keeps a store well-formed when the edited field is not
`pdf`. -/
theorem idxWF_applyEdit (idx : Idx) (p tid : JVal) (f : String) (v : JVal)
    (hf : f ≠ "pdf") (h : idxWF idx = true) :
    idxWF (applyEdit idx p tid f v) = true := by
  induction idx with
  | nil => rfl
  | cons e rest ih =>
    obtain ⟨q, ts⟩ := e
    rw [idxWF_cons] at h
    obtain ⟨hnin, hqt, hqh, hqg, hrest⟩ := h
    by_cases hq : q = p
    · subst hq
      have hstep : applyEdit ((q, ts) :: rest) q tid f v =
          (q, updateFirst ts tid f v) :: rest := by
        simp [applyEdit]
      rw [hstep, idxWF_cons]
      exact ⟨hnin, hqt, hqh, groupWF_updateFirst q ts tid f v hf hqg, hrest⟩
    · have hb : (q == p) = false := beq_eq_false_iff_ne.mpr hq
      have hstep : applyEdit ((q, ts) :: rest) p tid f v =
          (q, ts) :: applyEdit rest p tid f v := by
        simp [applyEdit, hb]
      rw [hstep, idxWF_cons]
      refine ⟨?_, hqt, hqh, hqg, ih hrest⟩
      have hkeys : keysOf (applyEdit rest p tid f v) = keysOf rest :=
        keysOf_applyEdit rest p tid f v
      rw [hkeys]
      exact hnin

end WFLemmas

section ReloadLemmas

theorem linesOf_benign (rs : List JRec)
    (h : ∀ r ∈ rs, truthy (pyGet r "pdf") = true ∧ hashable (pyGet r "pdf") = true) :
    (linesOf rs).all lineBenign = true := by
  induction rs with
  | nil => rfl
  | cons r rest ih =>
    have hr := h r (List.mem_cons_self r rest)
    rw [linesOf, List.map_cons, List.all_cons, Bool.and_eq_true]
    constructor
    · simp [lineBenign, hr.1, hr.2]
    · exact ih fun u hu => h u (List.mem_cons_of_mem r hu)

theorem keptRecords_linesOf (rs : List JRec)
    (h : ∀ r ∈ rs, truthy (pyGet r "pdf") = true) :
    keptRecords (linesOf rs) = rs := by
  induction rs with
  | nil => rfl
  | cons r rest ih =>
    have hr := h r (List.mem_cons_self r rest)
    rw [linesOf, List.map_cons]
    show keptRecords (Line.json (JVal.obj r) :: rest.map _) = r :: rest
    rw [keptRecords, if_pos hr]
    show r :: keptRecords (linesOf rest) = r :: rest
    rw [ih fun u hu => h u (List.mem_cons_of_mem r hu)]

theorem streamRecords_linesOf (rs : List JRec) : streamRecords (linesOf rs) = rs := by
  induction rs with
  | nil => rfl
  | cons r rest ih =>
    rw [linesOf, List.map_cons]
    show r :: streamRecords (linesOf rest) = r :: rest
    rw [ih]

end ReloadLemmas

section ScanLemmas

theorem find?_eq_some_split {α : Type _} (p : α → Bool) (l : List α) (a : α)
    (h : List.find? p l = some a) :
    ∃ pre post, l = pre ++ a :: post ∧ p a = true ∧ ∀ x ∈ pre, p x = false := by
  induction l with
  | nil => cases h
  | cons x xs ih =>
    rw [List.find?_cons] at h
    cases hx : p x with
    | true =>
      rw [hx] at h
      have hxa : x = a := by
        injection h
      subst hxa
      exact ⟨[], xs, rfl, hx, fun y hy => absurd hy (List.not_mem_nil y)⟩
    | false =>
      rw [hx] at h
      obtain ⟨pre, post, h1, h2, h3⟩ := ih h
      refine ⟨x :: pre, post, by rw [h1]; rfl, h2, ?_⟩
      intro y hy
      cases hy with
      | head => exact hx
      | tail _ hy => exact h3 y hy

theorem getTests_of_mem (idx : Idx) (q : JVal) (ts : List JRec)
    (hnd : keysNodup (keysOf idx) = true) (h : (q, ts) ∈ idx) :
    getTests idx q = ts := by
  induction idx with
  | nil => cases h
  | cons e rest ih =>
    obtain ⟨k, us⟩ := e
    rw [keysOf_cons, keysNodup, Bool.and_eq_true, Bool.not_eq_true'] at hnd
    cases h with
    | head => rw [getTests_cons, if_pos rfl]
    | tail _ hm =>
      have hq : k ≠ q := by
        intro e
        subst e
        have hmem : k ∈ keysOf rest := by
          have : (Prod.fst : JVal × List JRec → JVal) (k, ts) ∈ rest.map Prod.fst :=
            List.mem_map_of_mem Prod.fst hm
          exact this
        rw [← pyIn_iff_mem] at hmem
        rw [hmem] at hnd
        exact Bool.noConfusion hnd.1
      rw [getTests_cons, if_neg hq]
      exact ih hnd.2 hm

theorem mem_save_of_mem_getTests (idx : Idx) (p : JVal) (t : JRec)
    (h : t ∈ getTests idx p) : t ∈ save_dataset idx := by
  induction idx with
  | nil => cases h
  | cons e rest ih =>
    obtain ⟨k, us⟩ := e
    rw [getTests_cons] at h
    show t ∈ us ++ save_dataset rest
    by_cases hk : k = p
    · rw [if_pos hk] at h
      exact List.mem_append_left _ h
    · rw [if_neg hk] at h
      exact List.mem_append_right _ (ih h)

theorem exists_entry_of_mem_save (idx : Idx) (r : JRec) (h : r ∈ save_dataset idx) :
    ∃ e ∈ idx, r ∈ e.2 := by
  obtain ⟨l, hl, hrl⟩ := List.mem_flatten.mp h
  obtain ⟨e, he, hel⟩ := List.mem_map.mp hl
  exact ⟨e, he, by rw [hel]; exact hrl⟩

end ScanLemmas

/-- C5 counterexample: with one document `A` holding an unreviewed record
and the cursor recorded at the vanished name `Z`, the retreat operation
keeps the cursor at `Z` while the next-unreviewed scan would give `A` — so
retreat does not fall back to the scan as the claim states for every
navigation operation. -/
theorem prev_pdf_no_fallback_counterexample :
    prev_pdf [JVal.str "A"] (some (JVal.str "Z")) ≠
      find_next_unchecked_pdf [(JVal.str "A", [recA1])] [JVal.str "A"] := by
  decide

/-- C5 amended: when the recorded current document is absent from the
ordered name list, only `advance` falls back to the next-unreviewed scan;
`retreat` leaves the cursor unchanged and `gotoIndex` repositions by index
alone (no-op out of range), neither consulting the scan. -/
theorem nav_missing_current_behavior (idx : Idx) (pdfs : List JVal) (c : JVal)
    (h : pyIn c pdfs = false) : navMissingCurrent idx pdfs c := by
  refine ⟨?_, ?_, ?_⟩
  · simp [next_pdf, h]
  · simp [prev_pdf, h]
  · intro i
    rfl

/-- Witness for the amended C5 at a concrete state: name `Z` is absent from
the singleton list `[A]` and the three moves behave as stated. -/
theorem nav_missing_current_behavior_witness :
    pyIn (JVal.str "Z") [JVal.str "A"] = false ∧
      navMissingCurrent [(JVal.str "A", [recA1])] [JVal.str "A"] (JVal.str "Z") :=
  ⟨by decide, nav_missing_current_behavior [(JVal.str "A", [recA1])] [JVal.str "A"]
    (JVal.str "Z") (by decide)⟩

/-- C7: for every store and ordered name list, `goto_pdf` outside
`[0, documentCount)` leaves the cursor unchanged, `prev_pdf` on the first
document leaves the cursor on it, and `next_pdf` on the last document
returns exactly the result of the next-unchecked scan, which is either another
document name or the sentinel. -/
theorem navigation_bounds (idx : Idx) (pdfs : List JVal) : navBounds idx pdfs := by
  refine ⟨?_, ?_, ?_⟩
  · intro curr i h
    simp [goto_pdf, h]
  · intro c rest h
    subst h
    simp [prev_pdf, pyIn, listIndex]
  · intro pre c h hm
    subst h
    have hcont : pyIn c (pre ++ [c]) = true := pyIn_concat_self pre c
    have hidx : listIndex c (pre ++ [c]) = pre.length := listIndex_concat_self pre c hm
    have hlen : (pre ++ [c]).length = pre.length + 1 := by simp
    have hlt : ¬ (pre.length < pre.length + 1 - 1) := by omega
    simp only [next_pdf, hcont, if_true, hidx, hlen, hlt, if_false]

/-- Witness for C7 at a concrete two-document state: index 5 is out of
range and is a no-op, retreat from the first document `A` stays at `A`, and
advance from the last document `B` equals the next-unchecked scan result. -/
theorem navigation_bounds_witness :
    goto_pdf [JVal.str "A", JVal.str "B"] (some (JVal.str "A")) 5 = some (JVal.str "A") ∧
      prev_pdf [JVal.str "A", JVal.str "B"] (some (JVal.str "A")) = some (JVal.str "A") ∧
      next_pdf idxAB [JVal.str "A", JVal.str "B"] (some (JVal.str "B")) =
        find_next_unchecked_pdf idxAB [JVal.str "A", JVal.str "B"] :=
  ⟨(navigation_bounds idxAB [JVal.str "A", JVal.str "B"]).1 (some (JVal.str "A")) 5 (by decide),
    (navigation_bounds idxAB [JVal.str "A", JVal.str "B"]).2.1 (JVal.str "A") [JVal.str "B"] rfl,
    (navigation_bounds idxAB [JVal.str "A", JVal.str "B"]).2.2 [JVal.str "A"] (JVal.str "B") rfl
      (by decide)⟩

/-- C8 counterexample: the line `5` decodes as JSON but not as a record
object; the loop calls `.get` on the decoded integer, which raises, so the
load aborts instead of skipping the line and continuing. -/
theorem load_nonobject_line_aborts :
    load_dataset [Line.json (JVal.num 5)] = Except.error LoadCrash.attributeError := rfl

/-- C8 amended: lines failing JSON decoding are skipped with a warning and
records lacking a truthy `pdf` are silently dropped, every other decoded
record with a hashable `pdf` is appended to the sequence of its document with
first-sight key creation — but a line decoding to a non-object JSON value
aborts the load with an uncaught error rather than being skipped. -/
theorem load_line_behavior : loadLineBehavior := by
  refine ⟨fun ls idx w => rfl, ?_, ?_, ?_, keysOf_appendTest_mem, keysOf_appendTest_not_mem,
    getTests_appendTest_self⟩
  · intro ls idx w r h
    simp [loadLines, h, truthy]
  · intro ls idx w r h1 h2
    simp [loadLines, h1, h2]
  · intro ls idx w v h
    cases v <;> simp_all [isObj, loadLines]

/-- Witness for the amended C8 at concrete inputs: one warning for a
malformed line, a record lacking `pdf` dropped, a record for document `A`
appended with its key created on first sight, and the non-object line `5`
aborting the load. -/
theorem load_line_behavior_witness :
    loadLines [Line.malformed] [] 0 = loadLines [] [] (0 + 1) ∧
      loadLines [Line.json (JVal.obj [("id", JVal.str "x")])] [] 0 = loadLines [] [] 0 ∧
      loadLines [Line.json (JVal.obj recA1)] [] 0 =
        loadLines [] (appendTest [] (pyGet recA1 "pdf") recA1) 0 ∧
      loadLines [Line.json (JVal.num 5)] [] 0 = Except.error LoadCrash.attributeError ∧
      keysOf (appendTest [] (JVal.str "A") recA1) = keysOf ([] : Idx) ++ [JVal.str "A"] :=
  ⟨load_line_behavior.1 [] [] 0,
    load_line_behavior.2.1 [] [] 0 [("id", JVal.str "x")] (by decide),
    load_line_behavior.2.2.1 [] [] 0 recA1 (by decide) (by decide),
    load_line_behavior.2.2.2.1 [] [] 0 (JVal.num 5) (by decide),
    load_line_behavior.2.2.2.2.2.1 [] (JVal.str "A") recA1 (by decide)⟩

/-- C1 evidence: the temporary file is placed in the system temporary
directory, not the directory of the target, and whenever that directory is on a
different filesystem the replacement degrades to copy-then-delete — a
truncate-then-write of the target, not a single atomic rename, so an
interruption can leave the target partially written. -/
theorem save_dataset_not_atomic_across_filesystems :
    save_temp_dir "/tmp" "/data" ≠ "/data" ∧
      save_replace_kind false = MoveKind.copyThenDelete :=
  ⟨by decide, rfl⟩

/-- C4: over a store with distinct document keys and the key list derived
from it, the scan returns the first document with an unchecked record,
returns some document iff some record anywhere is unchecked, and returns
the sentinel iff the `checked` of every record is non-null. -/
theorem next_unchecked_correct (idx : Idx) (hnd : keysNodup (keysOf idx) = true) :
    nextUncheckedSpec idx := by
  have hentry : ∀ r ∈ save_dataset idx, pyGet r "checked" = JVal.null →
      ∃ q ∈ keysOf idx, hasUnchecked (getTests idx q) = true := by
    intro r hr hnull
    obtain ⟨e, he, hre⟩ := exists_entry_of_mem_save idx r hr
    have hget : getTests idx e.1 = e.2 := getTests_of_mem idx e.1 e.2 hnd he
    refine ⟨e.1, List.mem_map_of_mem Prod.fst he, ?_⟩
    rw [hget, hasUnchecked, List.any_eq_true]
    exact ⟨r, hre, by rw [hnull]; exact beq_self_eq_true _⟩
  have hback : ∀ p, hasUnchecked (getTests idx p) = true →
      ∃ r ∈ save_dataset idx, pyGet r "checked" = JVal.null := by
    intro p hp
    rw [hasUnchecked, List.any_eq_true] at hp
    obtain ⟨t, ht, htn⟩ := hp
    exact ⟨t, mem_save_of_mem_getTests idx p t ht, eq_of_beq htn⟩
  refine ⟨?_, ?_, ?_⟩
  · intro p hp
    unfold find_next_unchecked_pdf at hp
    exact find?_eq_some_split _ _ _ hp
  · constructor
    · rintro ⟨r, hr, hnull⟩
      obtain ⟨q, hqk, hunch⟩ := hentry r hr hnull
      cases hfind : find_next_unchecked_pdf idx (keysOf idx) with
      | some p => exact ⟨p, rfl⟩
      | none =>
        unfold find_next_unchecked_pdf at hfind
        exact absurd hunch (List.find?_eq_none.mp hfind q hqk)
    · rintro ⟨p, hp⟩
      unfold find_next_unchecked_pdf at hp
      have hpred := @List.find?_some JVal (fun q => hasUnchecked (getTests idx q)) p
        (keysOf idx) hp
      exact hback p hpred
  · constructor
    · intro hnone r hr hnull
      obtain ⟨q, hqk, hunch⟩ := hentry r hr hnull
      unfold find_next_unchecked_pdf at hnone
      exact absurd hunch (List.find?_eq_none.mp hnone q hqk)
    · intro hall
      unfold find_next_unchecked_pdf
      rw [List.find?_eq_none]
      intro p hpk hunch
      obtain ⟨r, hr, hnull⟩ := hback p hunch
      exact hall r hr hnull

/-- Witness for C4: the sample store has distinct keys `A`, `B` and
satisfies the scan specification. -/
theorem next_unchecked_correct_witness :
    keysNodup (keysOf idxAB) = true ∧ nextUncheckedSpec idxAB :=
  ⟨by decide, next_unchecked_correct idxAB (by decide)⟩

/-- C2: loading any well-formed record stream and saving the resulting
store succeeds and yields the records of the input as an unchanged multiset of
field-maps, preserving the relative order of the records of each document. -/
theorem save_load_round_trip (ls : List Line) (h : streamWF ls = true) : roundTripOK ls := by
  have hben := streamWF_benign ls h
  have hkept := streamWF_kept ls h
  have hload := loadLines_benign ls [] 0 hben
  refine ⟨(loadFold ls [], keysOf (loadFold ls []), 0 + warnCount ls), ?_, ?_, ?_⟩
  · unfold load_dataset
    rw [hload]
  · have hperm := save_loadFold_perm ls []
    rw [hkept] at hperm
    simpa [save_dataset] using hperm
  · intro p
    have hwf : idxWF (loadFold ls []) = true := idxWF_loadFold ls [] hben rfl
    show (save_dataset (loadFold ls [])).filter (byPdf p) = _
    rw [filter_save_eq_getTests _ p hwf, getTests_loadFold, hkept, getTests_nil,
      List.nil_append]

/-- Witness for C2: the sample stream is well-formed and round-trips. -/
theorem save_load_round_trip_witness :
    streamWF exStream = true ∧ roundTripOK exStream :=
  ⟨by decide, save_load_round_trip exStream (by decide)⟩

/-- C3 counterexample: editing the field named `pdf` itself breaks the
claimed durability — after `apply("A", "t1", "pdf", "B")` and a persist,
the reloaded store files the record under `B`, so looking up the original
`("A", "t1")` pair finds no record at all. -/
theorem edit_durability_pdf_counterexample :
    ¬ editDurable [(JVal.str "A", [[("pdf", JVal.str "A"), ("id", JVal.str "t1")]])]
      (JVal.str "A") (JVal.str "t1") "pdf" (JVal.str "B") := by
  rintro ⟨st, hload, u, hfind, hval⟩
  have hok : load_dataset (linesOf
      (update_test [(JVal.str "A", [[("pdf", JVal.str "A"), ("id", JVal.str "t1")]])]
        (JVal.str "A") (JVal.str "t1") "pdf" (JVal.str "B")).2.1) =
      Except.ok ([(JVal.str "B", [[("pdf", JVal.str "B"), ("id", JVal.str "t1")]])],
        [JVal.str "B"], 0) := by
    rfl
  rw [hok] at hload
  injection hload with h1
  subst h1
  have hnone : findRecord
      ([(JVal.str "B", [[("pdf", JVal.str "B"), ("id", JVal.str "t1")]])],
        [JVal.str "B"], (0 : Nat)).1 (JVal.str "A") (JVal.str "t1") = none := rfl
  rw [hnone] at hfind
  exact Option.noConfusion hfind

/-- C3 amended: for a well-formed store holding a record matching the
`(pdf, id)` pair, and an edited field other than `pdf` and `id` (editing
those changes the very identity the lookup uses), persisting after the
edit and reloading yields the record of the pair carrying the new value. -/
theorem edit_durability (idx : Idx) (p tid : JVal) (f : String) (v : JVal)
    (hwf : idxWF idx = true)
    (hmem : ∃ t ∈ getTests idx p, (pyGet t "id" == tid) = true)
    (hf1 : f ≠ "pdf") (hf2 : f ≠ "id") :
    editDurable idx p tid f v := by
  have hwf1 : idxWF (applyEdit idx p tid f v) = true := idxWF_applyEdit idx p tid f v hf1 hwf
  have hprops := save_mem_props (applyEdit idx p tid f v) hwf1
  have hben : (linesOf (save_dataset (applyEdit idx p tid f v))).all lineBenign = true :=
    linesOf_benign _ hprops
  have hload := loadLines_benign _ [] 0 hben
  have hsaved : (update_test idx p tid f v).2.1 = save_dataset (applyEdit idx p tid f v) := rfl
  refine ⟨(loadFold (linesOf (save_dataset (applyEdit idx p tid f v))) [],
    keysOf (loadFold (linesOf (save_dataset (applyEdit idx p tid f v))) []),
    0 + warnCount (linesOf (save_dataset (applyEdit idx p tid f v)))), ?_, ?_⟩
  · rw [hsaved]
    unfold load_dataset
    rw [hload]
  · show ∃ u, (getTests (loadFold (linesOf (save_dataset (applyEdit idx p tid f v))) [])
        p).find? (fun t => pyGet t "id" == tid) = some u ∧ pyGet u f = v
    rw [getTests_loadFold, getTests_nil, List.nil_append,
      keptRecords_linesOf _ (fun r hr => (hprops r hr).1),
      filter_save_eq_getTests _ p hwf1, getTests_applyEdit]
    exact find?_updateFirst (getTests idx p) tid f v hf2 hmem

/-- Witness for the amended C3: editing `checked` on the record `a1` of
document `A` in the sample store survives persist and reload. -/
theorem edit_durability_witness :
    idxWF idxAB = true ∧
      (∃ t ∈ getTests idxAB (JVal.str "A"), (pyGet t "id" == JVal.str "a1") = true) ∧
      "checked" ≠ "pdf" ∧ "checked" ≠ "id" ∧
      editDurable idxAB (JVal.str "A") (JVal.str "a1") "checked" (JVal.str "verified") :=
  ⟨by decide, by decide, by decide, by decide,
    edit_durability idxAB (JVal.str "A") (JVal.str "a1") "checked" (JVal.str "verified")
      (by decide) (by decide) (by decide) (by decide)⟩


end ReviewApp
